import Mathlib

/-!
Verification of the cidr2ip CIDR-to-IP enumerator (cidr2ip.go).

The development shallow-embeds the program's core:
* `nextIP`    — the in-place byte-wise address increment (`func nextIP`),
  modelled as a value-returning function on the list of address bytes;
* `maskIP`, `ipContains`, `cidrMask` — the `net` primitives
  `IP.Mask`, `IPNet.Contains` and `net.CIDRMask` that the enumeration
  loop calls, restricted to the 4-byte (IPv4) family the spec covers;
* `dtoiAux`/`parseOctet`/`parseIPv4`/`parseCIDR` — `net.ParseCIDR`
  for the IPv4 family (the IPv6 branch of `net.ParseCIDR` is outside the
  spec's supported family and is not modelled: a string rejected by the
  IPv4 branch is treated as unparseable);
* `loopGo`/`getIPsFromCIDR` — the enumeration loop
  `for ip := ip.Mask(ipnet.Mask); ipnet.Contains(ip); nextIP(ip)`,
  with an explicit fuel parameter: `none` means the loop has not
  finished within the given number of iterations (so divergence is
  `none` for every fuel);
* `generateIPs`/`mainCheck`/`mainRun` — the concurrent fan-out/fan-in
  aggregator and the input-validation done by `main`/`readFromFile`.
  Task completion order is an explicit permutation parameter `order`;
  a task failure makes `handleError` print and call `os.Exit(1)`,
  modelled as the outcome `Except.error 1` (process exit, not a Go
  return value).

`ipToNat`/`ofNat4` are measurement functions relating a 4-byte address
to its value as a big-endian unsigned integer.
-/

namespace Cidr2ip

/-- The error produced by `net.ParseCIDR` (`*net.ParseError` with
`Type: "CIDR address"`), the spec's `InvalidCIDRFormat`. -/
inductive GoErr where
  | invalidCIDR (text : String)
  deriving DecidableEq, Repr

/-- Little-endian byte increment with carry.  This is the functional
form of the loop in `func nextIP(ip net.IP)`, which walks the bytes
from last to first, incrementing each (as a `byte`, hence mod 256) and
stopping at the first byte that did not wrap to 0. -/
def incLE : List Nat → List Nat
  | [] => []
  | b :: bs =>
    let b' := (b + 1) % 256
    if b' = 0 then b' :: incLE bs else b' :: bs

/-- Go's `func nextIP(ip net.IP)`: increment the address by one, carrying
from the least-significant (last) byte.  The Go function mutates `ip`
in place; here the updated byte list is returned. -/
def nextIP (ip : List Nat) : List Nat :=
  (incLE ip.reverse).reverse

/-- Little-endian value of a byte list (measurement function). -/
def valLE : List Nat → Nat
  | [] => 0
  | b :: bs => b + 256 * valLE bs

/-- Value of an address as a big-endian unsigned integer
(measurement function, not part of the program). -/
def ipToNat (ip : List Nat) : Nat :=
  valLE ip.reverse

/-- The 4-byte big-endian representation of `n % 2^32`
(measurement function, not part of the program). -/
def ofNat4 (n : Nat) : List Nat :=
  [n / 16777216 % 256, n / 65536 % 256, n / 256 % 256, n % 256]

/-- Embeds `IP.Mask`: byte-wise AND of an address with a mask of the same
length (the 4-byte case used here). -/
def maskIP (ip mask : List Nat) : List Nat :=
  List.zipWith (fun a b => a &&& b) ip mask

/-- Embeds `IPNet.Contains`: an address is in the network when it has the
network's length and agrees with the network number on all masked
bytes (Go compares `nn[i]&m[i]` with `ip[i]&m[i]` for every `i`). -/
def ipContains (nn m ip : List Nat) : Bool :=
  decide (ip.length = nn.length) && decide (maskIP nn m = maskIP ip m)

/-- The byte-building loop of `net.CIDRMask(ones, bits)`: `l` bytes,
`255` while at least 8 mask bits remain, then `^byte(0xff >> n)`
(that is `255 - (255 >>> n)`) for the partial byte, then `0`. -/
def cidrMaskBytes : Nat → Nat → List Nat
  | _, 0 => []
  | n, l + 1 =>
    if 8 ≤ n then 255 :: cidrMaskBytes (n - 8) l
    else (255 - (255 >>> n)) :: cidrMaskBytes 0 l

/-- Embeds `net.CIDRMask(ones, 32)`: the 4-byte mask of a prefix length. -/
def cidrMask (ones : Nat) : List Nat :=
  cidrMaskBytes ones 4

/-- The decimal-number scanner `dtoi` of package `net`: consume
leading digits, accumulating the value; overflow past `0xFFFFFF`
fails; an empty digit run fails.  Returns (value, chars consumed,
success flag). -/
def dtoiAux : List Char → Nat → Nat → Nat × Nat × Bool
  | [], n, i => if i = 0 then (0, 0, false) else (n, i, true)
  | c :: cs, n, i =>
    if '0' ≤ c ∧ c ≤ '9' then
      let n' := n * 10 + (c.toNat - '0'.toNat)
      if 16777215 ≤ n' then (16777215, i, false)
      else dtoiAux cs n' (i + 1)
    else if i = 0 then (0, 0, false) else (n, i, true)

/-- Entry point of `dtoi`. -/
def dtoi (s : List Char) : Nat × Nat × Bool :=
  dtoiAux s 0 0

/-- One octet of `parseIPv4`: a decimal run that is `≤ 0xFF` and has
no leading zero (Go rejects `c > 1 && s[0] == '0'`).  Returns the
octet value and the unconsumed input. -/
def parseOctet (s : List Char) : Option (Nat × List Char) :=
  match dtoi s with
  | (n, c, ok) =>
    if ok = false then none
    else if 255 < n then none
    else if 1 < c ∧ s.headD ' ' = '0' then none
    else some (n, s.drop c)

/-- The `.` separator between octets in `parseIPv4`. -/
def expectDot : List Char → Option (List Char)
  | '.' :: rest => some rest
  | _ => none

/-- Embeds `parseIPv4`: four dot-separated octets consuming the whole
string. -/
def parseIPv4 (s : List Char) : Option (List Nat) :=
  match parseOctet s with
  | none => none
  | some (n0, s) =>
    match expectDot s with
    | none => none
    | some s =>
      match parseOctet s with
      | none => none
      | some (n1, s) =>
        match expectDot s with
        | none => none
        | some s =>
          match parseOctet s with
          | none => none
          | some (n2, s) =>
            match expectDot s with
            | none => none
            | some s =>
              match parseOctet s with
              | none => none
              | some (n3, s) =>
                if s = [] then some [n0, n1, n2, n3] else none

/-- Embeds `byteIndex(s, '/')` and the split done by `net.ParseCIDR`:
split at the first `/`, failing when there is none. -/
def splitSlash : List Char → Option (List Char × List Char)
  | [] => none
  | c :: cs =>
    if c = '/' then some ([], cs)
    else
      match splitSlash cs with
      | none => none
      | some (a, b) => some (c :: a, b)

/-- Embeds `net.ParseCIDR` for the IPv4 family: split at the first `/`,
parse the address part with `parseIPv4` and the mask part with `dtoi`
(which must consume the whole mask string and yield at most
`8*IPv4len = 32`).  Returns the (unmasked) address bytes and the
prefix length; `getIPsFromCIDR` rebuilds the mask with `cidrMask`
exactly as Go builds `CIDRMask(n, 8*iplen)`. -/
def parseCIDR (s : String) : Option (List Nat × Nat) :=
  match splitSlash s.toList with
  | none => none
  | some (addr, mask) =>
    match parseIPv4 addr with
    | none => none
    | some ip =>
      match dtoi mask with
      | (n, i, ok) =>
        if ok = false then none
        else if i ≠ mask.length then none
        else if 32 < n then none
        else some (ip, n)

/-- Embeds `IP.String()` for a 4-byte address: the dot-separated decimal
octets (`uitoa` of each byte). -/
def ipString (ip : List Nat) : String :=
  String.intercalate "." (ip.map fun b => toString b)

/-- The enumeration loop of `getIPsFromCIDR`:
`for ip := base; ipnet.Contains(ip); nextIP(ip) { ips = append(ips, ip) }`,
collecting the visited cursors.  `fuel` bounds the number of loop
iterations that may be observed; `none` means the loop has not
finished within `fuel` steps (in particular, a diverging loop is
`none` for every fuel). -/
def loopGo (nn m : List Nat) : Nat → List Nat → Option (List (List Nat))
  | 0, _ => none
  | fuel + 1, ip =>
    if ipContains nn m ip then
      match loopGo nn m fuel (nextIP ip) with
      | none => none
      | some rest => some (ip :: rest)
    else
      some []

/-- Embeds `func getIPsFromCIDR(cidr string) ([]string, error)`: parse the
CIDR, fail with the parse error if invalid, otherwise run the
enumeration loop from the masked base address and render every
visited cursor with `IP.String()`. -/
def getIPsFromCIDR (fuel : Nat) (s : String) : Option (Except GoErr (List String)) :=
  match parseCIDR s with
  | none => some (Except.error (GoErr.invalidCIDR s))
  | some (ip, p) =>
    match loopGo (maskIP ip (cidrMask p)) (cidrMask p) fuel (maskIP ip (cidrMask p)) with
    | none => none
    | some cursors => some (Except.ok (cursors.map ipString))

/-- The enumerator, observably: `getIPsFromCIDR cidr` returns the
list `l` when the loop finishes within some number of iterations. -/
def enumerates (s : String) (l : List String) : Prop :=
  ∃ fuel, getIPsFromCIDR fuel s = some (Except.ok l)

/-- Embeds `func generateIPs(cidrs []string) ([]string, error)`: one task per
CIDR, each running `getIPsFromCIDR`; a task whose enumeration fails
calls `handleError`, which prints the error and calls `os.Exit(1)` —
modelled as the outcome `Except.error 1` (the process terminates with
status 1; `generateIPs` itself never returns a non-nil error).
Otherwise every task sends its whole list to the capacity-`len(cidrs)`
channel, the supervisor closes the channel after the `WaitGroup`
join, and the drain loop concatenates the lists in task completion
order, given here as the index list `order` (a permutation of the
task indices).  If no task fails but some task's loop never finishes,
the run never completes (`none`). -/
def generateIPs (fuel : Nat) (cidrs : List String) (order : List Nat) :
    Option (Except Nat (List String)) :=
  let rs := cidrs.map fun c => getIPsFromCIDR fuel c
  if rs.any fun r =>
      match r with
      | some (Except.error _) => true
      | _ => false then
    some (Except.error 1)
  else if rs.any fun r =>
      match r with
      | none => true
      | _ => false then
    none
  else
    some (Except.ok (List.flatten (order.map fun i =>
      match rs.getD i none with
      | some (Except.ok l) => l
      | _ => [])))

/-- The input source handed to `readCIDRs`: either the command-line
arguments, or a file given with `-f` (its size in bytes and its
lines). -/
inductive InputSource where
  | args (cidrs : List String)
  | file (size : Nat) (lines : List String)

/-- The input validation performed before any enumeration:
`main` rejects the case of no `-f` flag and no arguments
(`EmptyInputSource`), and `readFromFile` rejects a size-0 file
(`EmptyInputSource`); a non-empty file yields its scanned lines. -/
def mainCheck : InputSource → Except String (List String)
  | InputSource.args [] => Except.error "no CIDRs provided"
  | InputSource.args cs => Except.ok cs
  | InputSource.file 0 _ => Except.error "empty file"
  | InputSource.file _ lines => Except.ok lines

/-- Embeds `func main` up to CSV output: validate the input source
(`handleError` exits with status 1 on a validation error, before any
enumeration), then run `generateIPs`. -/
def mainRun (src : InputSource) (fuel : Nat) (order : List Nat) :
    Option (Except Nat (List String)) :=
  match mainCheck src with
  | Except.error _ => some (Except.error 1)
  | Except.ok cidrs => generateIPs fuel cidrs order

/-! ### Arithmetic of the byte-wise increment -/

theorem incLE_length (l : List Nat) : (incLE l).length = l.length := by
  induction l with
  | nil => rfl
  | cons b bs ih =>
    simp only [incLE]
    by_cases h : (b + 1) % 256 = 0 <;> simp [h, ih]

theorem incLE_bytes {l : List Nat} (h : ∀ b ∈ l, b < 256) :
    ∀ b ∈ incLE l, b < 256 := by
  induction l with
  | nil => simp [incLE]
  | cons b bs ih =>
    have hb : b < 256 := h b (by simp)
    have hbs : ∀ x ∈ bs, x < 256 := fun x hx => h x (by simp [hx])
    simp only [incLE]
    by_cases hz : (b + 1) % 256 = 0
    · simp only [hz, if_pos rfl]
      intro x hx
      rcases List.mem_cons.1 hx with hx | hx
      · omega
      · exact ih hbs x hx
    · simp only [if_neg hz]
      intro x hx
      rcases List.mem_cons.1 hx with hx | hx
      · have : (b + 1) % 256 < 256 := Nat.mod_lt _ (by norm_num)
        omega
      · exact hbs x hx

theorem valLE_lt {l : List Nat} (h : ∀ b ∈ l, b < 256) :
    valLE l < 256 ^ l.length := by
  induction l with
  | nil => simp [valLE]
  | cons b bs ih =>
    have hb : b < 256 := h b (by simp)
    have hbs := ih fun x hx => h x (by simp [hx])
    simp only [valLE, List.length_cons, pow_succ]
    calc b + 256 * valLE bs < 256 + 256 * valLE bs := by omega
      _ ≤ 256 * (valLE bs + 1) := by ring_nf; omega
      _ ≤ 256 * 256 ^ bs.length := by
          exact Nat.mul_le_mul_left _ (by omega)
      _ = 256 ^ bs.length * 256 := by ring

theorem valLE_incLE {l : List Nat} (h : ∀ b ∈ l, b < 256) :
    valLE (incLE l) = (valLE l + 1) % 256 ^ l.length := by
  induction l with
  | nil => simp [incLE, valLE]
  | cons b bs ih =>
    have hb : b < 256 := h b (by simp)
    have hbs : ∀ x ∈ bs, x < 256 := fun x hx => h x (by simp [hx])
    simp only [incLE]
    by_cases hz : (b + 1) % 256 = 0
    · have hb255 : b = 255 := by omega
      simp only [hz, if_pos rfl, valLE, ih hbs, hb255, List.length_cons, pow_succ]
      have : valLE bs + 1 ≤ 256 ^ bs.length := valLE_lt hbs
      rw [show 256 ^ bs.length * 256 = 256 * 256 ^ bs.length by ring,
        show 255 + 256 * valLE bs + 1 = 256 * (valLE bs + 1) by ring,
        Nat.mul_mod_mul_left]
      omega
    · have hlt : b + 1 < 256 := by omega
      have hmod : (b + 1) % 256 = b + 1 := Nat.mod_eq_of_lt hlt
      simp only [if_neg hz, valLE, hmod, List.length_cons, pow_succ]
      have hv : valLE bs < 256 ^ bs.length := valLE_lt hbs
      rw [Nat.mod_eq_of_lt]
      · ring
      · have h2 : valLE bs + 1 ≤ 256 ^ bs.length := hv
        calc b + 256 * valLE bs + 1 < 256 * (valLE bs + 1) := by omega
          _ ≤ 256 * 256 ^ bs.length := Nat.mul_le_mul_left _ h2
          _ = 256 ^ bs.length * 256 := by ring

theorem pow256 (n : Nat) : 256 ^ n = 2 ^ (8 * n) := by
  rw [Nat.pow_mul]

theorem nextIP_length (ip : List Nat) : (nextIP ip).length = ip.length := by
  simp [nextIP, incLE_length]

theorem nextIP_bytes {ip : List Nat} (h : ∀ b ∈ ip, b < 256) :
    ∀ b ∈ nextIP ip, b < 256 := by
  intro b hb
  simp only [nextIP, List.mem_reverse] at hb
  exact incLE_bytes (fun x hx => h x (List.mem_reverse.1 hx)) b hb

theorem ipToNat_lt {ip : List Nat} (h : ∀ b ∈ ip, b < 256) :
    ipToNat ip < 2 ^ (8 * ip.length) := by
  rw [← pow256, ipToNat, ← List.length_reverse ip]
  exact valLE_lt fun x hx => h x (List.mem_reverse.1 hx)

/-- The increment `nextIP` adds one to the big-endian value of the address,
modulo `2^(8·n)` where `n` is the byte length. -/
theorem ipToNat_nextIP {ip : List Nat} (h : ∀ b ∈ ip, b < 256) :
    ipToNat (nextIP ip) = (ipToNat ip + 1) % 2 ^ (8 * ip.length) := by
  rw [ipToNat, nextIP, List.reverse_reverse, ipToNat, ← pow256,
    ← List.length_reverse ip]
  exact valLE_incLE fun x hx => h x (List.mem_reverse.1 hx)

/-! ### The 4-byte bridge `ofNat4` -/

theorem ofNat4_length (n : Nat) : (ofNat4 n).length = 4 := rfl

theorem ofNat4_bytes (n : Nat) : ∀ b ∈ ofNat4 n, b < 256 := by
  simp only [ofNat4, List.mem_cons, List.not_mem_nil, or_false]
  intro b hb
  rcases hb with h | h | h | h <;> omega

theorem ipToNat_ofNat4 (n : Nat) : ipToNat (ofNat4 n) = n % 4294967296 := by
  simp only [ipToNat, ofNat4, List.reverse_cons, List.reverse_nil, List.nil_append,
    List.cons_append, valLE]
  omega

theorem ofNat4_mod (n : Nat) : ofNat4 (n % 4294967296) = ofNat4 n := by
  simp only [ofNat4, List.cons.injEq, and_true]
  refine ⟨by omega, by omega, by omega, by omega⟩

theorem ofNat4_ipToNat {l : List Nat} (h4 : l.length = 4)
    (hb : ∀ b ∈ l, b < 256) : ofNat4 (ipToNat l) = l := by
  match l, h4 with
  | [a, b, c, d], _ =>
    have ha : a < 256 := hb a (by simp)
    have hbb : b < 256 := hb b (by simp)
    have hc : c < 256 := hb c (by simp)
    have hd : d < 256 := hb d (by simp)
    simp only [ipToNat, ofNat4, List.reverse_cons, List.reverse_nil, List.nil_append,
      List.cons_append, valLE, List.cons.injEq, and_true]
    refine ⟨by omega, by omega, by omega, by omega⟩

theorem ofNat4_inj {a b : Nat} (h : ofNat4 a = ofNat4 b) :
    a % 4294967296 = b % 4294967296 := by
  have := congrArg ipToNat h
  rwa [ipToNat_ofNat4, ipToNat_ofNat4] at this

/-- On the bridge, `nextIP` is exactly `+ 1`. -/
theorem nextIP_ofNat4 (n : Nat) : nextIP (ofNat4 n) = ofNat4 (n + 1) := by
  have hb := ofNat4_bytes n
  have h4 : (nextIP (ofNat4 n)).length = 4 := by rw [nextIP_length, ofNat4_length]
  have hnb : ∀ b ∈ nextIP (ofNat4 n), b < 256 := nextIP_bytes hb
  have hv : ipToNat (nextIP (ofNat4 n)) = (n + 1) % 4294967296 := by
    rw [ipToNat_nextIP hb, ofNat4_length, ipToNat_ofNat4]
    norm_num [Nat.add_mod_left]
  calc nextIP (ofNat4 n) = ofNat4 (ipToNat (nextIP (ofNat4 n))) :=
        (ofNat4_ipToNat h4 hnb).symm
    _ = ofNat4 ((n + 1) % 4294967296) := by rw [hv]
    _ = ofNat4 (n + 1) := ofNat4_mod _

/-! ### Bitwise AND, masks, and `ipContains` on the bridge -/

theorem shiftRight_and (x y e : Nat) :
    (x &&& y) >>> e = (x >>> e) &&& (y >>> e) := by
  apply Nat.eq_of_testBit_eq
  intro i
  simp [Nat.testBit_and, Nat.testBit_shiftRight]

/-- Byte `e` (as a right shift by `e` bits) of a bitwise AND is the
AND of the bytes. -/
theorem and_byte (x y e : Nat) :
    (x &&& y) / 2 ^ e % 256 = (x / 2 ^ e % 256) &&& (y / 2 ^ e % 256) := by
  apply Nat.eq_of_testBit_eq
  intro i
  rw [show (256 : ℕ) = 2 ^ 8 by norm_num]
  simp only [← Nat.shiftRight_eq_div_pow, Nat.testBit_mod_two_pow, shiftRight_and,
    Nat.testBit_and]
  cases hx : (x >>> e).testBit i <;> cases hy : (y >>> e).testBit i <;> simp

theorem and_byte0 (x y : Nat) : (x &&& y) % 256 = (x % 256) &&& (y % 256) := by
  have h := and_byte x y 0
  simpa using h

/-- On the bridge, `maskIP` is the bitwise AND of the values. -/
theorem maskIP_ofNat4 (x y : Nat) :
    maskIP (ofNat4 x) (ofNat4 y) = ofNat4 (x &&& y) := by
  simp only [maskIP, ofNat4, List.zipWith_cons_cons, List.zipWith_nil_right,
    List.cons.injEq, and_true]
  refine ⟨?_, ?_, ?_, (and_byte0 x y).symm⟩
  · rw [show (16777216 : ℕ) = 2 ^ 24 by norm_num]
    exact (and_byte x y 24).symm
  · rw [show (65536 : ℕ) = 2 ^ 16 by norm_num]
    exact (and_byte x y 16).symm
  · rw [show (256 : ℕ) = 2 ^ 8 by norm_num]
    exact (and_byte x y 8).symm

theorem and_shiftLeft_mask (x m e : Nat) :
    x &&& (m <<< e) = ((x >>> e) &&& m) <<< e := by
  apply Nat.eq_of_testBit_eq
  intro i
  simp only [Nat.testBit_and, Nat.testBit_shiftLeft, Nat.testBit_shiftRight]
  by_cases h : e ≤ i
  · simp [ge_iff_le, h, show e + (i - e) = i by omega]
  · simp [ge_iff_le, h]

/-- AND with the prefix mask keeps the high `32 - e` bits: it is
division-then-multiplication by `2^e` (up to the width). -/
theorem and_mask {e : Nat} (he : e ≤ 32) (x : Nat) :
    x &&& (4294967296 - 2 ^ e) = x / 2 ^ e % 2 ^ (32 - e) * 2 ^ e := by
  have hpow : (2 : ℕ) ^ (32 - e) * 2 ^ e = 4294967296 := by
    rw [← pow_add, show 32 - e + e = 32 by omega]
    norm_num
  have hM : (4294967296 : ℕ) - 2 ^ e = (2 ^ (32 - e) - 1) <<< e := by
    rw [Nat.shiftLeft_eq, Nat.sub_mul, one_mul, hpow]
  rw [hM, and_shiftLeft_mask, Nat.and_pow_two_sub_one_eq_mod, Nat.shiftLeft_eq,
    Nat.shiftRight_eq_div_pow]

/-- The mask `net.CIDRMask(p, 32)` builds exactly the 4 bytes of
`2^32 - 2^(32-p)` (the `p` leading one bits). -/
theorem cidrMask_eq : ∀ p < 33, cidrMask p = ofNat4 (4294967296 - 2 ^ (32 - p)) := by
  decide

/-- On the bridge, `IPNet.Contains` holds iff masked values agree: an address is in the network iff
its masked value equals the masked network number. -/
theorem ipContains_iff {p : Nat} (hp : p ≤ 32) (b x : Nat) :
    ipContains (ofNat4 b) (cidrMask p) (ofNat4 x) = true ↔
      x &&& (4294967296 - 2 ^ (32 - p)) = b &&& (4294967296 - 2 ^ (32 - p)) := by
  have hm := cidrMask_eq p (by omega)
  have hMlt : (4294967296 : ℕ) - 2 ^ (32 - p) < 4294967296 := by
    have : 0 < (2 : ℕ) ^ (32 - p) := pow_pos (by norm_num) _
    omega
  rw [ipContains, hm, maskIP_ofNat4, maskIP_ofNat4]
  simp only [ofNat4_length, Bool.and_eq_true, decide_eq_true_eq, true_and]
  constructor
  · intro h
    have h3 := ofNat4_inj h
    rw [Nat.mod_eq_of_lt (lt_of_le_of_lt Nat.and_le_right hMlt),
      Nat.mod_eq_of_lt (lt_of_le_of_lt Nat.and_le_right hMlt)] at h3
    exact h3.symm
  · intro h
    rw [h]

/-- Inside the network: every cursor `base + k` with `k` below the
network size passes the `Contains` test. -/
theorem ipContains_body {p q k : Nat} (hp : p ≤ 32) (hq : q < 2 ^ p)
    (hk : k < 2 ^ (32 - p)) :
    ipContains (ofNat4 (q * 2 ^ (32 - p))) (cidrMask p)
      (ofNat4 (q * 2 ^ (32 - p) + k)) = true := by
  rw [ipContains_iff hp, and_mask (by omega), and_mask (by omega)]
  have hpos : 0 < (2 : ℕ) ^ (32 - p) := pow_pos (by norm_num) _
  have hdiv : (q * 2 ^ (32 - p) + k) / 2 ^ (32 - p) = q := by
    rw [Nat.add_comm, show q * 2 ^ (32 - p) = 2 ^ (32 - p) * q by ring,
      Nat.add_mul_div_left _ _ hpos, Nat.div_eq_of_lt hk, Nat.zero_add]
  rw [hdiv, Nat.mul_div_cancel _ hpos]

/-- Loop exit: the cursor one past the broadcast address fails the
`Contains` test (this needs `1 ≤ p`; for `p = 0` the test stays
true forever). -/
theorem ipContains_exit {p q : Nat} (hp1 : 1 ≤ p) (hp : p ≤ 32) (hq : q < 2 ^ p) :
    ipContains (ofNat4 (q * 2 ^ (32 - p))) (cidrMask p)
      (ofNat4 (q * 2 ^ (32 - p) + 2 ^ (32 - p))) = false := by
  have hpos : 0 < (2 : ℕ) ^ (32 - p) := pow_pos (by norm_num) _
  have h2p : 2 ≤ 2 ^ p := by
    calc (2 : ℕ) = 2 ^ 1 := rfl
      _ ≤ 2 ^ p := Nat.pow_le_pow_right (by norm_num) hp1
  rw [Bool.eq_false_iff]
  intro h
  rw [ipContains_iff hp, and_mask (by omega), and_mask (by omega)] at h
  have hdiv1 : (q * 2 ^ (32 - p) + 2 ^ (32 - p)) / 2 ^ (32 - p) = q + 1 := by
    rw [show q * 2 ^ (32 - p) + 2 ^ (32 - p) = (q + 1) * 2 ^ (32 - p) by ring,
      Nat.mul_div_cancel _ hpos]
  rw [hdiv1, Nat.mul_div_cancel _ hpos, show 32 - (32 - p) = p by omega,
    Nat.mod_eq_of_lt hq] at h
  rcases Nat.lt_or_ge (q + 1) (2 ^ p) with hlt | hge
  · rw [Nat.mod_eq_of_lt hlt] at h
    have := Nat.eq_of_mul_eq_mul_right hpos h
    omega
  · have heq : q + 1 = 2 ^ p := by omega
    rw [heq, Nat.mod_self, Nat.zero_mul] at h
    have : q = 0 := by
      rcases Nat.mul_eq_zero.1 h.symm with h0 | h0
      · exact h0
      · omega
    omega

/-- Unfolding of one loop iteration. -/
theorem loopGo_succ (nn m ip : List Nat) (fuel : Nat) :
    loopGo nn m (fuel + 1) ip =
      if ipContains nn m ip then
        match loopGo nn m fuel (nextIP ip) with
        | none => none
        | some rest => some (ip :: rest)
      else some [] := rfl

/-- One full run of the enumeration loop, counted from cursor
`base + k`: with `m` iterations left to the end of the network and
fuel `m + 1`, it returns exactly the cursors `base + k, …,
base + k + m - 1`. -/
theorem loopGo_steps {p q : Nat} (hp1 : 1 ≤ p) (hp : p ≤ 32) (hq : q < 2 ^ p) :
    ∀ m k, k + m = 2 ^ (32 - p) →
    loopGo (ofNat4 (q * 2 ^ (32 - p))) (cidrMask p) (m + 1)
        (ofNat4 (q * 2 ^ (32 - p) + k)) =
      some ((List.range m).map fun j => ofNat4 (q * 2 ^ (32 - p) + k + j)) := by
  intro m
  induction m with
  | zero =>
    intro k hk
    have hk' : k = 2 ^ (32 - p) := by omega
    subst hk'
    simp only [loopGo, ipContains_exit hp1 hp hq, Bool.false_eq_true, if_false,
      List.range_zero, List.map_nil]
  | succ m ih =>
    intro k hk
    have hck : ipContains (ofNat4 (q * 2 ^ (32 - p))) (cidrMask p)
        (ofNat4 (q * 2 ^ (32 - p) + k)) = true :=
      ipContains_body hp hq (by omega)
    have hrec := ih (k + 1) (by omega)
    rw [loopGo_succ, if_pos hck, nextIP_ofNat4,
      show q * 2 ^ (32 - p) + k + 1 = q * 2 ^ (32 - p) + (k + 1) by ring, hrec]
    show some (ofNat4 (q * 2 ^ (32 - p) + k) ::
        List.map (fun j => ofNat4 (q * 2 ^ (32 - p) + (k + 1) + j)) (List.range m)) =
      some (List.map (fun j => ofNat4 (q * 2 ^ (32 - p) + k + j)) (List.range (m + 1)))
    rw [List.range_succ_eq_map, List.map_cons, List.map_map]
    simp only [Option.some.injEq, List.cons.injEq]
    refine ⟨congrArg ofNat4 (Nat.add_zero _).symm, List.map_congr_left fun j hj => ?_⟩
    simp only [Function.comp_apply]
    generalize q * 2 ^ (32 - p) = b
    exact congrArg ofNat4 (by omega)

/-! ### Parse validity -/

theorem parseOctet_le {s : List Char} {n : Nat} {rest : List Char}
    (h : parseOctet s = some (n, rest)) : n < 256 := by
  unfold parseOctet at h
  rcases hd : dtoi s with ⟨v, c, ok⟩
  rw [hd] at h
  simp only at h
  split_ifs at h with h1 h2 h3
  simp only [Option.some.injEq, Prod.mk.injEq] at h
  omega

theorem parseIPv4_valid {s : List Char} {l : List Nat}
    (h : parseIPv4 s = some l) : l.length = 4 ∧ ∀ b ∈ l, b < 256 := by
  unfold parseIPv4 at h
  split at h
  · exact Option.noConfusion h
  · rename_i n0 s0 heq0
    split at h
    · exact Option.noConfusion h
    · rename_i s1 heq1
      split at h
      · exact Option.noConfusion h
      · rename_i n1 s2 heq2
        split at h
        · exact Option.noConfusion h
        · rename_i s3 heq3
          split at h
          · exact Option.noConfusion h
          · rename_i n2 s4 heq4
            split at h
            · exact Option.noConfusion h
            · rename_i s5 heq5
              split at h
              · exact Option.noConfusion h
              · rename_i n3 s6 heq6
                split_ifs at h
                simp only [Option.some.injEq] at h
                subst h
                refine ⟨rfl, ?_⟩
                intro b hb
                simp only [List.mem_cons, List.not_mem_nil, or_false] at hb
                rcases hb with rfl | rfl | rfl | rfl
                · exact parseOctet_le heq0
                · exact parseOctet_le heq2
                · exact parseOctet_le heq4
                · exact parseOctet_le heq6

theorem parseCIDR_valid {s : String} {ip : List Nat} {p : Nat}
    (h : parseCIDR s = some (ip, p)) :
    ip.length = 4 ∧ (∀ b ∈ ip, b < 256) ∧ p ≤ 32 := by
  unfold parseCIDR at h
  split at h
  · exact Option.noConfusion h
  · rename_i addr mask heqsp
    split at h
    · exact Option.noConfusion h
    · rename_i ip0 heqip
      rcases hd : dtoi mask with ⟨n, i, ok⟩
      rw [hd] at h
      simp only at h
      split_ifs at h with h1 h2 h3
      simp only [Option.some.injEq, Prod.mk.injEq] at h
      obtain ⟨rfl, rfl⟩ := h
      obtain ⟨h4, hb⟩ := parseIPv4_valid heqip
      exact ⟨h4, hb, by omega⟩

/-! ### The enumeration characterized, for prefix length ≥ 1 -/

/-- The masked base of a parsed CIDR, as a value: the high `p` bits
of the address, with `2^(32-p) | base` and `base + 2^(32-p) ≤ 2^32`. -/
theorem base_decompose {s : String} {ip : List Nat} {p : Nat}
    (h : parseCIDR s = some (ip, p)) :
    maskIP ip (cidrMask p) =
      ofNat4 (ipToNat ip / 2 ^ (32 - p) % 2 ^ p * 2 ^ (32 - p)) ∧
    ipToNat (maskIP ip (cidrMask p)) =
      ipToNat ip / 2 ^ (32 - p) % 2 ^ p * 2 ^ (32 - p) ∧
    ipToNat ip / 2 ^ (32 - p) % 2 ^ p * 2 ^ (32 - p) + 2 ^ (32 - p) ≤ 4294967296 := by
  obtain ⟨h4, hb, hp32⟩ := parseCIDR_valid h
  have hip : ip = ofNat4 (ipToNat ip) := (ofNat4_ipToNat h4 hb).symm
  have hm := cidrMask_eq p (by omega)
  have hbase : maskIP ip (cidrMask p) =
      ofNat4 (ipToNat ip / 2 ^ (32 - p) % 2 ^ p * 2 ^ (32 - p)) := by
    rw [hm]
    conv_lhs => rw [hip]
    rw [maskIP_ofNat4, and_mask (by omega), show 32 - (32 - p) = p by omega]
  have hqlt : ipToNat ip / 2 ^ (32 - p) % 2 ^ p < 2 ^ p :=
    Nat.mod_lt _ (pow_pos (by norm_num) _)
  have hQle : ipToNat ip / 2 ^ (32 - p) % 2 ^ p * 2 ^ (32 - p) + 2 ^ (32 - p) ≤
      4294967296 := by
    have hq1 : ipToNat ip / 2 ^ (32 - p) % 2 ^ p ≤ 2 ^ p - 1 := by omega
    have hmul : (2 : ℕ) ^ p * 2 ^ (32 - p) = 4294967296 := by
      rw [← pow_add, show p + (32 - p) = 32 by omega]
      norm_num
    have hpos : 0 < (2 : ℕ) ^ (32 - p) := pow_pos (by norm_num) _
    have hle : ipToNat ip / 2 ^ (32 - p) % 2 ^ p * 2 ^ (32 - p)
        ≤ (2 ^ p - 1) * 2 ^ (32 - p) := Nat.mul_le_mul_right _ hq1
    have heq : (2 ^ p - 1) * 2 ^ (32 - p) =
        2 ^ p * 2 ^ (32 - p) - 2 ^ (32 - p) := by rw [Nat.sub_mul, one_mul]
    have h1 : (2 : ℕ) ^ (32 - p) ≤ 2 ^ p * 2 ^ (32 - p) :=
      Nat.le_mul_of_pos_left _ (pow_pos (by norm_num) _)
    calc ipToNat ip / 2 ^ (32 - p) % 2 ^ p * 2 ^ (32 - p) + 2 ^ (32 - p)
        ≤ (2 ^ p - 1) * 2 ^ (32 - p) + 2 ^ (32 - p) := Nat.add_le_add_right hle _
      _ = 2 ^ p * 2 ^ (32 - p) - 2 ^ (32 - p) + 2 ^ (32 - p) := by rw [heq]
      _ = 2 ^ p * 2 ^ (32 - p) := Nat.sub_add_cancel h1
      _ = 4294967296 := hmul
  have hQlt : ipToNat ip / 2 ^ (32 - p) % 2 ^ p * 2 ^ (32 - p) < 4294967296 := by
    have hpos : 0 < (2 : ℕ) ^ (32 - p) := pow_pos (by norm_num) _
    omega
  exact ⟨hbase, by rw [hbase, ipToNat_ofNat4, Nat.mod_eq_of_lt hQlt], hQle⟩

/-- For a successfully parsed CIDR of prefix length `p ≥ 1`, fuel
`2^(32-p) + 1` completes the loop, visiting exactly the `2^(32-p)`
consecutive addresses from the masked base address. -/
theorem loop_run_of_parse {s : String} {ip : List Nat} {p : Nat}
    (h : parseCIDR s = some (ip, p)) (hp1 : 1 ≤ p) :
    loopGo (maskIP ip (cidrMask p)) (cidrMask p) (2 ^ (32 - p) + 1)
        (maskIP ip (cidrMask p)) =
      some ((List.range (2 ^ (32 - p))).map fun k =>
        ofNat4 (ipToNat (maskIP ip (cidrMask p)) + k)) := by
  obtain ⟨hbase, hbval, hQlt⟩ := base_decompose h
  obtain ⟨h4, hb, hp32⟩ := parseCIDR_valid h
  have hqlt : ipToNat ip / 2 ^ (32 - p) % 2 ^ p < 2 ^ p :=
    Nat.mod_lt _ (pow_pos (by norm_num) _)
  have hloop := loopGo_steps hp1 hp32 hqlt (2 ^ (32 - p)) 0 (by omega)
  simp only [Nat.add_zero] at hloop
  rw [hbval, hbase, hloop]

/-- Same, at the level of the rendered address strings returned by
`getIPsFromCIDR`. -/
theorem getIPs_run {s : String} {ip : List Nat} {p : Nat}
    (h : parseCIDR s = some (ip, p)) (hp1 : 1 ≤ p) :
    getIPsFromCIDR (2 ^ (32 - p) + 1) s =
      some (Except.ok ((List.range (2 ^ (32 - p))).map fun k =>
        ipString (ofNat4 (ipToNat (maskIP ip (cidrMask p)) + k)))) := by
  simp only [getIPsFromCIDR, h, loop_run_of_parse h hp1, List.map_map]
  rfl

/-! ### Divergence on prefix length 0 -/

/-- With mask `/0` every 4-byte address passes the `Contains` test,
so the loop never exits: it is `none` at every fuel. -/
theorem loopGo_zero_none : ∀ (fuel : Nat) (ip : List Nat), ip.length = 4 →
    loopGo (ofNat4 0) (cidrMask 0) fuel ip = none := by
  intro fuel
  induction fuel with
  | zero => intro ip _; rfl
  | succ f ih =>
    intro ip h4
    have hc : ipContains (ofNat4 0) (cidrMask 0) ip = true := by
      match ip, h4 with
      | [a, b, c, d], _ =>
        show ipContains [0, 0, 0, 0] [0, 0, 0, 0] [a, b, c, d] = true
        simp [ipContains, maskIP]
    rw [loopGo_succ, if_pos hc, ih (nextIP ip) (by rw [nextIP_length, h4])]

theorem getIPs_zero_none (fuel : Nat) : getIPsFromCIDR fuel "0.0.0.0/0" = none := by
  have hp : parseCIDR "0.0.0.0/0" = some ([0, 0, 0, 0], 0) := by decide
  have hbase : maskIP [0, 0, 0, 0] (cidrMask 0) = ofNat4 0 := by decide
  simp only [getIPsFromCIDR, hp, hbase, loopGo_zero_none fuel (ofNat4 0) rfl]

/-! ### Fuel monotonicity and determinism -/

theorem loopGo_mono {nn m : List Nat} :
    ∀ (f1 f2 : Nat) (ip : List Nat) (l : List (List Nat)), f1 ≤ f2 →
    loopGo nn m f1 ip = some l → loopGo nn m f2 ip = some l := by
  intro f1
  induction f1 with
  | zero =>
    intro f2 ip l _ h
    exact absurd h (by simp [loopGo])
  | succ f ih =>
    intro f2 ip l hle h
    cases f2 with
    | zero => omega
    | succ f2' =>
      rw [loopGo_succ] at h ⊢
      by_cases hc : ipContains nn m ip = true
      · rw [if_pos hc] at h ⊢
        cases hr : loopGo nn m f (nextIP ip) with
        | none =>
          rw [hr] at h
          exact absurd h (by simp)
        | some rest =>
          rw [hr] at h
          rw [ih f2' (nextIP ip) rest (by omega) hr]
          exact h
      · rw [if_neg hc] at h ⊢
        exact h

theorem getIPsFromCIDR_mono {s : String} {f1 f2 : Nat}
    {r : Except GoErr (List String)} (hle : f1 ≤ f2)
    (h : getIPsFromCIDR f1 s = some r) : getIPsFromCIDR f2 s = some r := by
  unfold getIPsFromCIDR at h ⊢
  cases hp : parseCIDR s with
  | none =>
    rw [hp] at h
    exact h
  | some v =>
    obtain ⟨ip, p⟩ := v
    rw [hp] at h
    simp only at h ⊢
    cases hl : loopGo (maskIP ip (cidrMask p)) (cidrMask p) f1 (maskIP ip (cidrMask p)) with
    | none =>
      rw [hl] at h
      exact absurd h (by simp)
    | some cursors =>
      rw [hl] at h
      rw [loopGo_mono f1 f2 _ cursors hle hl]
      exact h

/-- The enumerator's observable result is unique: the loop is
deterministic, so any two completed runs agree. -/
theorem enumerates_unique {s : String} {l1 l2 : List String}
    (h1 : enumerates s l1) (h2 : enumerates s l2) : l1 = l2 := by
  obtain ⟨f1, h1⟩ := h1
  obtain ⟨f2, h2⟩ := h2
  rcases le_total f1 f2 with hle | hle
  · have := getIPsFromCIDR_mono hle h1
    rw [this] at h2
    simpa using h2
  · have hmono := getIPsFromCIDR_mono hle h2
    rw [hmono] at h1
    have h12 : l2 = l1 := by simpa using h1
    exact h12.symm

/-! ### The aggregator -/

theorem map_getD_range {α : Type} (l : List α) (d : α) :
    (List.range l.length).map (fun i => l.getD i d) = l := by
  apply List.ext_getElem
  · simp
  · intro i h1 h2
    simp [List.getD_eq_getElem?_getD, List.getElem?_eq_getElem h2]

/-- If some task's enumeration fails, `handleError` terminates the
whole process with status 1 (modelled `Except.error 1`), whatever the
other tasks produced and whatever the completion order. -/
theorem generateIPs_err {fuel : Nat} {cidrs : List String} (order : List Nat)
    (h : ∃ c ∈ cidrs, ∃ e, getIPsFromCIDR fuel c = some (Except.error e)) :
    generateIPs fuel cidrs order = some (Except.error 1) := by
  obtain ⟨c, hc, e, he⟩ := h
  have hcond : ((cidrs.map fun c => getIPsFromCIDR fuel c).any fun r =>
      match r with
      | some (Except.error _) => true
      | _ => false) = true := by
    simp only [List.any_eq_true]
    exact ⟨getIPsFromCIDR fuel c, List.mem_map_of_mem _ hc, by rw [he]⟩
  unfold generateIPs
  rw [if_pos hcond]

/-- When every task's enumeration succeeds, the run completes and the
combined result is the concatenation of the per-task lists in
completion order; its total length is the sum of the individual
lengths however the tasks were scheduled. -/
theorem generateIPs_ok {fuel : Nat} {cidrs : List String} {ls : List (List String)}
    (hres : cidrs.map (fun c => getIPsFromCIDR fuel c) =
      ls.map (fun l => some (Except.ok l)))
    {order : List Nat} (horder : order.Perm (List.range cidrs.length)) :
    generateIPs fuel cidrs order =
      some (Except.ok (List.flatten (order.map fun i => ls.getD i []))) ∧
    (List.flatten (order.map fun i => ls.getD i [])).length =
      (ls.map List.length).sum := by
  have hlen : cidrs.length = ls.length := by
    have := congrArg List.length hres
    simpa using this
  constructor
  · unfold generateIPs
    rw [hres, if_neg, if_neg]
    · refine congrArg some (congrArg Except.ok (congrArg List.flatten
        (List.map_congr_left fun i hi => ?_)))
      rcases Nat.lt_or_ge i ls.length with hlt | hge
      · have h1 : (ls.map fun l =>
            (some (Except.ok l) : Option (Except GoErr (List String)))).getD i none =
            some (Except.ok (ls.getD i [])) := by
          have hlt2 : i < (ls.map fun l =>
              (some (Except.ok l) : Option (Except GoErr (List String)))).length := by
            simpa using hlt
          simp [List.getD_eq_getElem?_getD, List.getElem?_eq_getElem hlt2,
            List.getElem?_eq_getElem hlt]
        rw [h1]
      · have h1 : (ls.map fun l =>
            (some (Except.ok l) : Option (Except GoErr (List String)))).getD i none =
            none := by
          simp [List.getD_eq_getElem?_getD, List.getElem?_eq_none (by simpa using hge)]
        have h2 : ls.getD i [] = [] := by
          simp [List.getD_eq_getElem?_getD, List.getElem?_eq_none hge]
        rw [h1, h2]
    · simp [List.any_map, Function.comp_def]
    · simp [List.any_map, Function.comp_def]
  · rw [List.length_flatten, List.map_map]
    simp only [Function.comp_def]
    have hperm := (horder.map fun i => (ls.getD i []).length).sum_eq
    rw [hperm, hlen]
    have hrange : (List.range ls.length).map (fun i => (ls.getD i []).length) =
        ls.map List.length := by
      rw [show (fun i => (ls.getD i []).length) =
          (List.length ∘ fun i => ls.getD i []) from rfl,
        ← List.map_map, map_getD_range]
    rw [hrange]

/-! ### The claims -/

/-- C2: the claim says the enumeration loop terminates for every
prefix length of the supported family, including prefix length 0.
The code violates this at `0.0.0.0/0`: incrementing 255.255.255.255
wraps to 0.0.0.0, which still masks to the base address, so the loop
never exits (`none` at every fuel).  For every prefix length `p ≥ 1`
the loop does terminate, with some enumeration result. -/
theorem claimC2 :
    (∀ fuel, getIPsFromCIDR fuel "0.0.0.0/0" = none) ∧
    (∀ s ip p, parseCIDR s = some (ip, p) → 1 ≤ p → ∃ l, enumerates s l) :=
  ⟨getIPs_zero_none, fun _ _ p h hp1 => ⟨_, 2 ^ (32 - p) + 1, getIPs_run h hp1⟩⟩

theorem claimC2_witness :
    parseCIDR "10.0.0.4/30" = some ([10, 0, 0, 4], 30) ∧ 1 ≤ 30 ∧
    ∃ l, enumerates "10.0.0.4/30" l :=
  ⟨by decide, by norm_num,
    claimC2.2 "10.0.0.4/30" [10, 0, 0, 4] 30 (by decide) (by norm_num)⟩

/-- C4: every string rejected by the CIDR parser (bad octet
`172.256.0.0/16`, out-of-range prefix `10.0.0.0/33`, malformed
syntax `192.168.1.0/16.0`, and in general every unparseable string)
makes the enumerator fail with the `InvalidCIDRFormat` parse error
and produce no addresses at all — never a partial enumeration. -/
theorem claimC4 :
    (∀ fuel, getIPsFromCIDR fuel "172.256.0.0/16" =
      some (Except.error (GoErr.invalidCIDR "172.256.0.0/16"))) ∧
    (∀ fuel, getIPsFromCIDR fuel "10.0.0.0/33" =
      some (Except.error (GoErr.invalidCIDR "10.0.0.0/33"))) ∧
    (∀ fuel, getIPsFromCIDR fuel "192.168.1.0/16.0" =
      some (Except.error (GoErr.invalidCIDR "192.168.1.0/16.0"))) ∧
    (∀ fuel s, parseCIDR s = none →
      getIPsFromCIDR fuel s = some (Except.error (GoErr.invalidCIDR s))) := by
  have hgen : ∀ (fuel : Nat) (s : String), parseCIDR s = none →
      getIPsFromCIDR fuel s = some (Except.error (GoErr.invalidCIDR s)) := by
    intro fuel s hs
    unfold getIPsFromCIDR
    rw [hs]
  exact ⟨fun fuel => hgen fuel _ (by decide), fun fuel => hgen fuel _ (by decide),
    fun fuel => hgen fuel _ (by decide), hgen⟩

theorem claimC4_witness :
    parseCIDR "1.2.3.4" = none ∧
    getIPsFromCIDR 0 "1.2.3.4" = some (Except.error (GoErr.invalidCIDR "1.2.3.4")) :=
  ⟨by decide, claimC4.2.2.2 0 "1.2.3.4" (by decide)⟩

/-- C8: an empty input source — no `-f` flag and no command-line
arguments, or a `-f` file of size zero — makes the run fail
(process exit 1) before any enumeration: the outcome is the same for
every fuel and every completion order, in particular for fuel 0,
where no enumeration step can have happened, and no address list is
produced. -/
theorem claimC8 :
    (∀ fuel order, mainRun (InputSource.args []) fuel order =
      some (Except.error 1)) ∧
    (∀ lines fuel order, mainRun (InputSource.file 0 lines) fuel order =
      some (Except.error 1)) :=
  ⟨fun _ _ => rfl, fun _ _ _ => rfl⟩

/-- C9: the enumerator is deterministic — two independent completed
invocations on the same CIDR string return identical ordered address
lists. -/
theorem claimC9 {s : String} {l1 l2 : List String}
    (h1 : enumerates s l1) (h2 : enumerates s l2) : l1 = l2 :=
  enumerates_unique h1 h2

theorem claimC9_witness :
    enumerates "10.0.0.4/30" ["10.0.0.4", "10.0.0.5", "10.0.0.6", "10.0.0.7"] ∧
    (["10.0.0.4", "10.0.0.5", "10.0.0.6", "10.0.0.7"] : List String) =
      ["10.0.0.4", "10.0.0.5", "10.0.0.6", "10.0.0.7"] :=
  ⟨⟨5, by rfl⟩, @claimC9 "10.0.0.4/30" _ _ ⟨5, by rfl⟩ ⟨6, by rfl⟩⟩

/-- C10: `nextIP` on an `n`-byte address is addition of one modulo
`2^(8n)` on the big-endian value (and it preserves the length); in
particular the all-255 address wraps around to the all-zero address
instead of failing or saturating. -/
theorem claimC10 :
    (∀ ip : List Nat, (∀ b ∈ ip, b < 256) →
      ipToNat (nextIP ip) = (ipToNat ip + 1) % 2 ^ (8 * ip.length) ∧
      (nextIP ip).length = ip.length) ∧
    nextIP [255, 255, 255, 255] = [0, 0, 0, 0] :=
  ⟨fun _ h => ⟨ipToNat_nextIP h, nextIP_length _⟩, by decide⟩

theorem claimC10_witness :
    (∀ b ∈ [(7 : Nat), 255], b < 256) ∧
    (ipToNat (nextIP [7, 255]) =
        (ipToNat [7, 255] + 1) % 2 ^ (8 * ([(7 : Nat), 255]).length) ∧
      (nextIP [7, 255]).length = ([(7 : Nat), 255]).length) :=
  ⟨by decide, claimC10.1 [7, 255] (by decide)⟩

/-- C3, counterexample to the claim as stated: in the batch
`["10.0.0.0/30", "10.0.0.0/33"]` the first task enumerates
successfully (its full list is `10.0.0.0 … 10.0.0.3`), yet because
the second task fails, the run's outcome is process exit 1 — there
is no combined result for the successful task to contribute to. -/
theorem claimC3_counterexample :
    generateIPs 5 ["10.0.0.0/30", "10.0.0.0/33"] [0, 1] = some (Except.error 1) ∧
    getIPsFromCIDR 5 "10.0.0.0/30" =
      some (Except.ok ["10.0.0.0", "10.0.0.1", "10.0.0.2", "10.0.0.3"]) :=
  ⟨by rfl, by rfl⟩

/-- C3 (amended): a failing task's error is surfaced from inside the
task by `handleError`, which terminates the whole process with status
1; the aggregator never propagates the error as its own return
value — but since the process exits, no combined result is produced
at all and sibling successes contribute nothing. -/
theorem claimC3 {fuel : Nat} {cidrs : List String} (order : List Nat)
    (h : ∃ c ∈ cidrs, ∃ e, getIPsFromCIDR fuel c = some (Except.error e)) :
    generateIPs fuel cidrs order = some (Except.error 1) :=
  generateIPs_err order h

theorem claimC3_witness :
    (∃ c ∈ ["10.0.0.0/30", "10.0.0.0/33"], ∃ e,
      getIPsFromCIDR 5 c = some (Except.error e)) ∧
    generateIPs 5 ["10.0.0.0/30", "10.0.0.0/33"] [1, 0] = some (Except.error 1) :=
  ⟨⟨"10.0.0.0/33", by simp, GoErr.invalidCIDR "10.0.0.0/33", by rfl⟩,
   claimC3 [1, 0] ⟨"10.0.0.0/33", by simp, GoErr.invalidCIDR "10.0.0.0/33", by rfl⟩⟩

/-- C7: when every task's enumeration succeeds, the aggregator
completes with the concatenation of the per-task lists in completion
order, and the combined address count equals the sum of the
individual counts — for every completion order (any permutation of
the task indices). -/
theorem claimC7 {fuel : Nat} {cidrs : List String} {ls : List (List String)}
    {order : List Nat}
    (hres : cidrs.map (fun c => getIPsFromCIDR fuel c) =
      ls.map (fun l => some (Except.ok l)))
    (horder : order.Perm (List.range cidrs.length)) :
    ∃ res, generateIPs fuel cidrs order = some (Except.ok res) ∧
      res.length = (ls.map List.length).sum :=
  ⟨_, (generateIPs_ok hres horder).1, (generateIPs_ok hres horder).2⟩

theorem claimC7_witness :
    (["10.0.0.0/31", "10.0.0.8/31"].map fun c => getIPsFromCIDR 5 c) =
      ([["10.0.0.0", "10.0.0.1"], ["10.0.0.8", "10.0.0.9"]].map fun l =>
        some (Except.ok l)) ∧
    ([1, 0] : List Nat).Perm
      (List.range (["10.0.0.0/31", "10.0.0.8/31"].length)) ∧
    ∃ res, generateIPs 5 ["10.0.0.0/31", "10.0.0.8/31"] [1, 0] =
        some (Except.ok res) ∧
      res.length =
        ([["10.0.0.0", "10.0.0.1"], ["10.0.0.8", "10.0.0.9"]].map List.length).sum :=
  ⟨by rfl, by decide, claimC7 (by rfl) (by decide)⟩

/-- C1: the claim says every valid CIDR of prefix length `p`
enumerates to exactly `2^(32-p)` address strings, contiguous from the
masked base address, strictly increasing.  The code violates this at
the valid CIDR `0.0.0.0/0` (the loop never terminates, so nothing is
returned at all); for every prefix length `p ≥ 1` the property holds:
the loop visits exactly `2^(32-p)` cursors, the `j`-th being
`base + j`, in strictly increasing numeric order, and the enumerator
returns their string forms in that order. -/
theorem claimC1 :
    (¬ ∃ l, enumerates "0.0.0.0/0" l) ∧
    (∀ s ip p, parseCIDR s = some (ip, p) → 1 ≤ p →
      ∃ cursors,
        loopGo (maskIP ip (cidrMask p)) (cidrMask p) (2 ^ (32 - p) + 1)
          (maskIP ip (cidrMask p)) = some cursors ∧
        enumerates s (cursors.map ipString) ∧
        cursors.length = 2 ^ (32 - p) ∧
        cursors.get? 0 = some (maskIP ip (cidrMask p)) ∧
        (∀ j, j < 2 ^ (32 - p) →
          cursors.get? j =
            some (ofNat4 (ipToNat (maskIP ip (cidrMask p)) + j))) ∧
        List.Pairwise (fun a b => ipToNat a < ipToNat b) cursors) := by
  constructor
  · rintro ⟨l, fuel, hl⟩
    rw [getIPs_zero_none fuel] at hl
    exact Option.noConfusion hl
  · intro s ip p h hp1
    obtain ⟨hbase, hbval, hQle⟩ := base_decompose h
    have hpos : 0 < (2 : ℕ) ^ (32 - p) := pow_pos (by norm_num) _
    have hQle' : ipToNat (maskIP ip (cidrMask p)) + 2 ^ (32 - p) ≤ 4294967296 := by
      rw [hbval]
      exact hQle
    have hget : ∀ j, j < 2 ^ (32 - p) →
        ((List.range (2 ^ (32 - p))).map fun k =>
          ofNat4 (ipToNat (maskIP ip (cidrMask p)) + k)).get? j =
        some (ofNat4 (ipToNat (maskIP ip (cidrMask p)) + j)) := by
      intro j hj
      simp only [List.get?_eq_getElem?, List.getElem?_map, List.getElem?_range hj,
        Option.map_some']
    refine ⟨_, loop_run_of_parse h hp1, ⟨2 ^ (32 - p) + 1, ?_⟩, ?_, ?_, hget, ?_⟩
    · simp only [getIPsFromCIDR, h, loop_run_of_parse h hp1]
    · simp
    · rw [hget 0 hpos, Nat.add_zero, hbval, ← hbase]
    · rw [List.pairwise_map]
      refine List.Pairwise.imp_of_mem ?_ (List.pairwise_lt_range _)
      intro a b ha hb hab
      rw [List.mem_range] at ha hb
      rw [ipToNat_ofNat4, ipToNat_ofNat4, Nat.mod_eq_of_lt (by omega),
        Nat.mod_eq_of_lt (by omega)]
      omega

theorem claimC1_witness :
    parseCIDR "10.0.0.4/30" = some ([10, 0, 0, 4], 30) ∧ 1 ≤ 30 ∧
    ∃ cursors,
      loopGo (maskIP [10, 0, 0, 4] (cidrMask 30)) (cidrMask 30) (2 ^ (32 - 30) + 1)
        (maskIP [10, 0, 0, 4] (cidrMask 30)) = some cursors ∧
      enumerates "10.0.0.4/30" (cursors.map ipString) ∧
      cursors.length = 2 ^ (32 - 30) ∧
      cursors.get? 0 = some (maskIP [10, 0, 0, 4] (cidrMask 30)) ∧
      (∀ j, j < 2 ^ (32 - 30) →
        cursors.get? j =
          some (ofNat4 (ipToNat (maskIP [10, 0, 0, 4] (cidrMask 30)) + j))) ∧
      List.Pairwise (fun a b => ipToNat a < ipToNat b) cursors :=
  ⟨by decide, by norm_num,
    claimC1.2 "10.0.0.4/30" [10, 0, 0, 4] 30 (by decide) (by norm_num)⟩

/-- C5: the increment treats the 4-byte address as a big-endian
unsigned integer and adds one with carry from the least-significant
byte; in particular `10.0.0.255` increments to `10.0.1.0`, and in the
enumeration of the /16 network `10.0.0.0/16` the address `10.0.0.255`
(position 255) is immediately followed by `10.0.1.0` (position 256). -/
theorem claimC5 :
    (∀ ip : List Nat, ip.length = 4 → (∀ b ∈ ip, b < 256) →
      ipToNat (nextIP ip) = (ipToNat ip + 1) % 4294967296) ∧
    nextIP [10, 0, 0, 255] = [10, 0, 1, 0] ∧
    (∃ l, getIPsFromCIDR 65537 "10.0.0.0/16" = some (Except.ok l) ∧
      l.get? 255 = some "10.0.0.255" ∧ l.get? 256 = some "10.0.1.0") := by
  refine ⟨?_, by decide, ?_⟩
  · intro ip h4 hb
    have hn := ipToNat_nextIP hb
    rw [h4, show (2 : ℕ) ^ (8 * 4) = 4294967296 by norm_num] at hn
    exact hn
  · have hparse : parseCIDR "10.0.0.0/16" = some ([10, 0, 0, 0], 16) := by decide
    have hrun := getIPs_run hparse (by norm_num)
    have hQ : ipToNat (maskIP [10, 0, 0, 0] (cidrMask 16)) = 167772160 := by decide
    rw [hQ, show (2 : ℕ) ^ (32 - 16) + 1 = 65537 by norm_num] at hrun
    refine ⟨_, hrun, ?_, ?_⟩
    · rw [List.get?_eq_getElem?, List.getElem?_map,
        List.getElem?_range (show 255 < 2 ^ (32 - 16) by norm_num), Option.map_some']
      decide
    · rw [List.get?_eq_getElem?, List.getElem?_map,
        List.getElem?_range (show 256 < 2 ^ (32 - 16) by norm_num), Option.map_some']
      decide

theorem claimC5_witness :
    ([(10 : Nat), 0, 0, 255].length = 4 ∧ (∀ b ∈ [(10 : Nat), 0, 0, 255], b < 256)) ∧
    ipToNat (nextIP [10, 0, 0, 255]) = (ipToNat [10, 0, 0, 255] + 1) % 4294967296 :=
  ⟨⟨rfl, by decide⟩, claimC5.1 [10, 0, 0, 255] rfl (by decide)⟩

/-- C6: the claim says every valid CIDR enumerates exactly the
addresses whose masked value equals the base — including the network
address and the broadcast address.  The code violates this at the
valid CIDR `0.0.0.0/0` (nothing is enumerated at all, in particular
not the broadcast address); for every prefix length `p ≥ 1` the
property holds: the visited cursors contain the base and the
broadcast, and a 32-bit address is visited iff it passes the
network's `Contains` test — neither endpoint special-cased. -/
theorem claimC6 :
    (¬ ∃ l, enumerates "0.0.0.0/0" l ∧ "255.255.255.255" ∈ l) ∧
    (∀ s ip p, parseCIDR s = some (ip, p) → 1 ≤ p →
      ∃ cursors,
        loopGo (maskIP ip (cidrMask p)) (cidrMask p) (2 ^ (32 - p) + 1)
          (maskIP ip (cidrMask p)) = some cursors ∧
        enumerates s (cursors.map ipString) ∧
        maskIP ip (cidrMask p) ∈ cursors ∧
        ofNat4 (ipToNat (maskIP ip (cidrMask p)) + (2 ^ (32 - p) - 1)) ∈ cursors ∧
        (∀ x, x < 4294967296 →
          (ofNat4 x ∈ cursors ↔
            ipContains (maskIP ip (cidrMask p)) (cidrMask p) (ofNat4 x) = true))) := by
  constructor
  · rintro ⟨l, ⟨fuel, hl⟩, _⟩
    rw [getIPs_zero_none fuel] at hl
    exact Option.noConfusion hl
  · intro s ip p h hp1
    obtain ⟨hbase, hbval, hQle⟩ := base_decompose h
    obtain ⟨h4, hbytes, hp32⟩ := parseCIDR_valid h
    have hpos : 0 < (2 : ℕ) ^ (32 - p) := pow_pos (by norm_num) _
    have hqlt : ipToNat ip / 2 ^ (32 - p) % 2 ^ p < 2 ^ p :=
      Nat.mod_lt _ (pow_pos (by norm_num) _)
    have hQle' : ipToNat (maskIP ip (cidrMask p)) + 2 ^ (32 - p) ≤ 4294967296 := by
      rw [hbval]
      exact hQle
    refine ⟨_, loop_run_of_parse h hp1,
      ⟨2 ^ (32 - p) + 1, by simp only [getIPsFromCIDR, h, loop_run_of_parse h hp1]⟩,
      ?_, ?_, ?_⟩
    · refine List.mem_map.2 ⟨0, List.mem_range.2 hpos, ?_⟩
      rw [Nat.add_zero, hbval, ← hbase]
    · exact List.mem_map.2 ⟨2 ^ (32 - p) - 1, List.mem_range.2 (by omega), rfl⟩
    · intro x hx
      constructor
      · intro hmem
        obtain ⟨k, hk, hfk⟩ := List.mem_map.1 hmem
        rw [List.mem_range] at hk
        have hxeq : ipToNat (maskIP ip (cidrMask p)) + k = x := by
          have h2 := ofNat4_inj hfk
          rw [Nat.mod_eq_of_lt (by omega), Nat.mod_eq_of_lt hx] at h2
          exact h2
        rw [hbase, ← hxeq, hbval]
        exact ipContains_body hp32 hqlt hk
      · intro hc
        rw [hbase, ipContains_iff hp32, and_mask (by omega), and_mask (by omega),
          show 32 - (32 - p) = p by omega] at hc
        have hQdiv : ipToNat ip / 2 ^ (32 - p) % 2 ^ p * 2 ^ (32 - p) / 2 ^ (32 - p) =
            ipToNat ip / 2 ^ (32 - p) % 2 ^ p := Nat.mul_div_cancel _ hpos
        rw [hQdiv, Nat.mod_eq_of_lt hqlt] at hc
        have hxdiv : x / 2 ^ (32 - p) < 2 ^ p := by
          rw [Nat.div_lt_iff_lt_mul hpos]
          calc x < 4294967296 := hx
            _ = 2 ^ p * 2 ^ (32 - p) := by
                rw [← pow_add, show p + (32 - p) = 32 by omega]
                norm_num
        rw [Nat.mod_eq_of_lt hxdiv] at hc
        refine List.mem_map.2 ⟨x % 2 ^ (32 - p), List.mem_range.2 (Nat.mod_lt _ hpos), ?_⟩
        congr 1
        rw [hbval, ← hc, Nat.mul_comm (x / 2 ^ (32 - p)) (2 ^ (32 - p))]
        exact Nat.div_add_mod x (2 ^ (32 - p))

theorem claimC6_witness :
    parseCIDR "192.168.1.64/26" = some ([192, 168, 1, 64], 26) ∧ 1 ≤ 26 ∧
    ∃ cursors,
      loopGo (maskIP [192, 168, 1, 64] (cidrMask 26)) (cidrMask 26)
        (2 ^ (32 - 26) + 1) (maskIP [192, 168, 1, 64] (cidrMask 26)) =
        some cursors ∧
      enumerates "192.168.1.64/26" (cursors.map ipString) ∧
      maskIP [192, 168, 1, 64] (cidrMask 26) ∈ cursors ∧
      ofNat4 (ipToNat (maskIP [192, 168, 1, 64] (cidrMask 26)) +
        (2 ^ (32 - 26) - 1)) ∈ cursors ∧
      (∀ x, x < 4294967296 →
        (ofNat4 x ∈ cursors ↔
          ipContains (maskIP [192, 168, 1, 64] (cidrMask 26)) (cidrMask 26)
            (ofNat4 x) = true)) :=
  ⟨by decide, by norm_num,
    claimC6.2 "192.168.1.64/26" [192, 168, 1, 64] 26 (by decide) (by norm_num)⟩

end Cidr2ip
